import Mathlib

/-!
Verification of the dialogue-encoder and constrained-decoder core of
`simpletransformers/conv_ai/conv_ai_model.py` (the ConvAI model wrapper).

The embedding follows the Python source:
* `build_input_from_segments` (persona/history/reply packing with speaker
  roles and label masking) becomes `buildInput` over lists of token ids (`ℕ`),
  with labels over `ℤ` (the ignore sentinel is `-100`);
* `top_filtering` (top-k / nucleus / threshold logit filtering) becomes
  `top_filtering` over vectors of extended scores `EF := WithBot ℚ`, where
  `⊥` plays the role of `-inf` (the `filter_value`); probabilities produced
  by `F.softmax` are modelled exactly over `ℝ` with `Real.exp`;
* `sample_sequence`'s generation loop becomes `sampleLoop`, with the
  stochastic `torch.multinomial` draws supplied by an explicit draw stream;
  the inner special-token resampling `while` loop is given its exact
  big-step semantics (`Option`-valued: `none` models divergence of the
  `while` loop).
-/

/-- Extended score value: either a finite score (`ℚ`) or `-inf` (`⊥`).
Models the float values flowing through `top_filtering`, where `-inf` is
the `filter_value`. -/
abbrev EF := WithBot ℚ

/-- The ids of the reserved control tokens `<bos>, <eos>, <speaker1>,
<speaker2>` handed back by `tokenizer.convert_tokens_to_ids(SPECIAL_TOKENS[:-1])`
in `build_input_from_segments`. -/
structure Toks where
  bos : ℕ
  eos : ℕ
  speaker1 : ℕ
  speaker2 : ℕ
deriving DecidableEq

/-- Index-tracking map, used to embed Python's `enumerate` comprehensions. -/
def mapi (f : ℕ → α → β) : ℕ → List α → List β
  | _, [] => []
  | n, x :: xs => f n x :: mapi f (n + 1) xs

theorem mapi_length (f : ℕ → α → β) : ∀ (n : ℕ) (l : List α), (mapi f n l).length = l.length
  | _, [] => rfl
  | n, _ :: xs => by simp [mapi, mapi_length f (n + 1) xs]

theorem mapi_get? (f : ℕ → α → β) :
    ∀ (n : ℕ) (l : List α) (k : ℕ), (mapi f n l).get? k = (l.get? k).map (f (n + k))
  | _, [], k => by simp [mapi]
  | n, x :: xs, 0 => by simp [mapi]
  | n, x :: xs, k + 1 => by
    have h : n + 1 + k = n + (k + 1) := by omega
    simp only [mapi, List.get?, mapi_get? f (n + 1) xs k, h]

/-- The segment list before speaker-role prefixing:
`sequence = [[bos] + list(chain(*persona))] + history + [reply + ([eos] if with_eos else [])]`. -/
def seq0 (T : Toks) (persona history : List (List ℕ)) (reply : List ℕ) (with_eos : Bool) :
    List (List ℕ) :=
  ([T.bos] ++ persona.flatten) :: (history ++ [reply ++ (if with_eos then [T.eos] else [])])

/-- The speaker-role token chosen for the `i`-th non-persona segment:
`speaker2 if (len(sequence) - i) % 2 else speaker1`, where `L` is the length
of the un-prefixed segment list (`history.length + 2`). -/
def segRole (T : Toks) (L i : ℕ) : ℕ :=
  if (L - i) % 2 = 1 then T.speaker2 else T.speaker1

/-- The segment list after role prefixing:
`sequence = [sequence[0]] + [[speaker2 if (len(sequence)-i) % 2 else speaker1] + s
             for i, s in enumerate(sequence[1:])]`. -/
def seqP (T : Toks) (persona history : List (List ℕ)) (reply : List ℕ) (with_eos : Bool) :
    List (List ℕ) :=
  ([T.bos] ++ persona.flatten) ::
    mapi (fun i s => segRole T (history.length + 2) i :: s) 0
      (history ++ [reply ++ (if with_eos then [T.eos] else [])])

/-- The instance dictionary produced by `build_input_from_segments`. -/
structure Instance where
  input_ids : List ℕ
  token_type_ids : List ℕ
  mc_token_ids : ℕ
  labels : List ℤ
deriving DecidableEq

/-- `build_input_from_segments(persona, history, reply, tokenizer, labels, with_eos)`.
`labels` is the gold flag; the ignore sentinel is `-100`. -/
def buildInput (T : Toks) (persona history : List (List ℕ)) (reply : List ℕ)
    (labels with_eos : Bool) : Instance :=
  let seq := seqP T persona history reply with_eos
  let iid := seq.flatten
  { input_ids := iid
    token_type_ids :=
      (mapi (fun i s => s.map (fun _ => if i % 2 = 1 then T.speaker2 else T.speaker1)) 0 seq).flatten
    mc_token_ids := iid.length - 1
    labels :=
      if labels then
        List.replicate ((seq.dropLast.map List.length).sum) (-100) ++ [-100] ++
          ((seq.getLastD []).drop 1).map Int.ofNat
      else
        List.replicate iid.length (-100) }

theorem mapi_concat (f : ℕ → α → β) :
    ∀ (n : ℕ) (xs : List α) (x : α),
      mapi f n (xs ++ [x]) = mapi f n xs ++ [f (n + xs.length) x]
  | n, [], x => by simp [mapi]
  | n, y :: ys, x => by
    have h : n + 1 + ys.length = n + (ys.length + 1) := by omega
    simp [mapi, mapi_concat f (n + 1) ys x, h]

/-- `seqP` unwound: a persona block followed by the role-prefixed history
turns and, last, the role-prefixed reply segment. -/
theorem seqP_concat (T : Toks) (p h : List (List ℕ)) (r : List ℕ) (w : Bool) :
    seqP T p h r w =
      ([T.bos] ++ p.flatten) ::
        (mapi (fun i s => segRole T (h.length + 2) i :: s) 0 h ++
          [segRole T (h.length + 2) h.length :: (r ++ if w then [T.eos] else [])]) := by
  simp [seqP, mapi_concat]

theorem seqP_getLast (T : Toks) (p h : List (List ℕ)) (r : List ℕ) (w : Bool) :
    (seqP T p h r w).getLastD [] =
      segRole T (h.length + 2) h.length :: (r ++ if w then [T.eos] else []) := by
  rw [seqP_concat, List.getLastD_eq_getLast?, ← List.cons_append, List.getLast?_concat]
  rfl

theorem seqP_dropLast (T : Toks) (p h : List (List ℕ)) (r : List ℕ) (w : Bool) :
    (seqP T p h r w).dropLast =
      ([T.bos] ++ p.flatten) :: mapi (fun i s => segRole T (h.length + 2) i :: s) 0 h := by
  rw [seqP_concat, ← List.cons_append, List.dropLast_concat]

theorem mapi_map_length (g : ℕ → List ℕ → List ℕ) (hg : ∀ i s, (g i s).length = s.length) :
    ∀ (n : ℕ) (l : List (List ℕ)), (mapi g n l).map List.length = l.map List.length
  | _, [] => rfl
  | n, x :: xs => by simp [mapi, hg, mapi_map_length g hg (n + 1) xs]

/-- C2: in every instance returned by `build_input_from_segments`,
`len(input_ids) == len(token_type_ids) == len(labels)` and
`mc_token_ids == len(input_ids) - 1`, for both values of the gold flag and
with or without the end-of-sequence marker. -/
theorem buildInput_lengths (T : Toks) (p h : List (List ℕ)) (r : List ℕ) (lab w : Bool) :
    (buildInput T p h r lab w).token_type_ids.length =
        (buildInput T p h r lab w).input_ids.length ∧
      (buildInput T p h r lab w).labels.length = (buildInput T p h r lab w).input_ids.length ∧
      (buildInput T p h r lab w).mc_token_ids = (buildInput T p h r lab w).input_ids.length - 1 := by
  refine ⟨?_, ?_, rfl⟩
  · simp only [buildInput, List.length_flatten]
    rw [mapi_map_length]
    intro i s
    simp
  · cases lab with
    | false => simp [buildInput]
    | true =>
      simp only [buildInput, if_true, List.length_flatten]
      rw [seqP_dropLast, seqP_getLast, seqP_concat]
      simp [List.length_append, List.length_replicate]
      omega

theorem get?_eq_some_getD {α} (l : List α) (i : ℕ) (d : α) (h : i < l.length) :
    l.get? i = some (l.getD i d) := by
  rw [List.getD_eq_getElem?_getD, List.get?_eq_getElem?]
  cases hx : l[i]? with
  | none => simp [List.getElem?_eq_none_iff] at hx; omega
  | some v => rfl

/-- C6: speaker-role alternation.  Adjacent non-persona segments carry
opposite role tokens, the reply segment's role is `speaker1` for every
history length, and these roles are exactly the tokens prefixed to the
segments of the built sequence. -/
theorem seqP_role_alternation (T : Toks) (p h : List (List ℕ)) (r : List ℕ) (w : Bool)
    (hne : T.speaker1 ≠ T.speaker2) :
    (∀ i, i + 1 ≤ h.length →
        segRole T (h.length + 2) i ≠ segRole T (h.length + 2) (i + 1)) ∧
      segRole T (h.length + 2) h.length = T.speaker1 ∧
      (seqP T p h r w).get? (h.length + 1) =
        some (T.speaker1 :: (r ++ if w then [T.eos] else [])) ∧
      ∀ i, i < h.length →
        (seqP T p h r w).get? (i + 1) =
          some (segRole T (h.length + 2) i :: h.getD i []) := by
  have hreply : segRole T (h.length + 2) h.length = T.speaker1 := by
    have h2 : h.length + 2 - h.length = 2 := by omega
    simp [segRole, h2]
  refine ⟨?_, hreply, ?_, ?_⟩
  · intro i hi
    simp only [segRole]
    by_cases hp : (h.length + 2 - (i + 1)) % 2 = 1
    · have hq : ¬(h.length + 2 - i) % 2 = 1 := by omega
      rw [if_neg hq, if_pos hp]
      exact hne
    · have hq : (h.length + 2 - i) % 2 = 1 := by omega
      rw [if_pos hq, if_neg hp]
      exact hne.symm
  · rw [seqP_concat]
    have hlen : (mapi (fun i s => segRole T (h.length + 2) i :: s) 0 h).length = h.length :=
      mapi_length _ 0 h
    calc (([T.bos] ++ p.flatten) ::
          (mapi (fun i s => segRole T (h.length + 2) i :: s) 0 h ++
            [segRole T (h.length + 2) h.length :: (r ++ if w then [T.eos] else [])])).get?
            (h.length + 1)
        = (mapi (fun i s => segRole T (h.length + 2) i :: s) 0 h ++
            [segRole T (h.length + 2) h.length :: (r ++ if w then [T.eos] else [])]).get?
            h.length := rfl
      _ = some (segRole T (h.length + 2) h.length :: (r ++ if w then [T.eos] else [])) := by
          have hc := List.get?_concat_length
            (mapi (fun i s => segRole T (h.length + 2) i :: s) 0 h)
            (segRole T (h.length + 2) h.length :: (r ++ if w then [T.eos] else []))
          rw [hlen] at hc
          exact hc
      _ = some (T.speaker1 :: (r ++ if w then [T.eos] else [])) := by rw [hreply]
  · intro i hi
    rw [seqP_concat]
    have hlen : (mapi (fun i s => segRole T (h.length + 2) i :: s) 0 h).length = h.length :=
      mapi_length _ 0 h
    have hlt : i < (mapi (fun i s => segRole T (h.length + 2) i :: s) 0 h).length := by
      rw [hlen]
      omega
    have hstep : (([T.bos] ++ p.flatten) ::
          (mapi (fun i s => segRole T (h.length + 2) i :: s) 0 h ++
            [segRole T (h.length + 2) h.length :: (r ++ if w then [T.eos] else [])])).get?
            (i + 1) =
        (mapi (fun i s => segRole T (h.length + 2) i :: s) 0 h).get? i := by
      have h1 : (([T.bos] ++ p.flatten) ::
            (mapi (fun i s => segRole T (h.length + 2) i :: s) 0 h ++
              [segRole T (h.length + 2) h.length :: (r ++ if w then [T.eos] else [])])).get?
              (i + 1) =
          (mapi (fun i s => segRole T (h.length + 2) i :: s) 0 h ++
            [segRole T (h.length + 2) h.length :: (r ++ if w then [T.eos] else [])]).get?
            i := rfl
      rw [h1]
      exact List.get?_append hlt
    rw [hstep, mapi_get? _ 0 h i, get?_eq_some_getD h i [] hi]
    simp

/-- The token typing asserted by the spec sentence for C3: each segment of
the built sequence is typed by its own leading speaker-role token, the
persona block by the first non-persona role found.  (This definition
follows the claim's words, to be compared against `buildInput`.) -/
def specTokenTypes (T : Toks) (p h : List (List ℕ)) (r : List ℕ) (w : Bool) : List ℕ :=
  match seqP T p h r w with
  | [] => []
  | s0 :: rest =>
      List.replicate s0.length ((rest.headD []).headD T.speaker1) ++
        (rest.map fun s => List.replicate s.length (s.headD 0)).flatten

/-- The amended token typing: the persona block is typed `speaker1`, and
each non-persona segment is typed by its own leading role token. -/
def ownRoleTypes (T : Toks) (p h : List (List ℕ)) (r : List ℕ) (w : Bool) : List ℕ :=
  match seqP T p h r w with
  | [] => []
  | s0 :: rest =>
      List.replicate s0.length T.speaker1 ++
        (rest.map fun s => List.replicate s.length (s.headD 0)).flatten

/-- C3 counterexample: with an empty (even-length) history the reply
segment is prefixed with `speaker1` (= 2) in `input_ids` but typed
`speaker2` (= 3) in `token_type_ids`, so `token_type_ids` does not repeat
each segment's own leading role token. -/
theorem token_type_not_own_role_even_history :
    (buildInput ⟨0, 1, 2, 3⟩ [[5]] [] [7] false true).input_ids = [0, 5, 2, 7, 1] ∧
      (buildInput ⟨0, 1, 2, 3⟩ [[5]] [] [7] false true).token_type_ids = [2, 2, 3, 3, 3] ∧
      specTokenTypes ⟨0, 1, 2, 3⟩ [[5]] [] [7] true = [2, 2, 2, 2, 2] ∧
      (buildInput ⟨0, 1, 2, 3⟩ [[5]] [] [7] false true).token_type_ids ≠
        specTokenTypes ⟨0, 1, 2, 3⟩ [[5]] [] [7] true := by decide

theorem typing_aux (T : Toks) (L : ℕ) :
    ∀ (hs : List (List ℕ)) (n m : ℕ),
      (∀ k, k < hs.length → ((n + k) % 2 = 1 ↔ (L - (m + k)) % 2 = 1)) →
      mapi (fun i s => s.map fun _ => if i % 2 = 1 then T.speaker2 else T.speaker1) n
          (mapi (fun i s => segRole T L i :: s) m hs) =
        (mapi (fun i s => segRole T L i :: s) m hs).map
          (fun s => List.replicate s.length (s.headD 0))
  | [], _, _, _ => rfl
  | s :: ss, n, m, hpar => by
    simp only [mapi, List.map]
    refine congrArg₂ List.cons ?_ ?_
    · have h0 := hpar 0 (by simp)
      simp only [Nat.add_zero] at h0
      show (segRole T L m :: s).map (fun _ => if n % 2 = 1 then T.speaker2 else T.speaker1) =
        List.replicate (segRole T L m :: s).length ((segRole T L m :: s).headD 0)
      rw [List.map_const']
      simp only [List.headD_cons]
      congr 1
      rw [segRole]
      exact if_congr h0 rfl rfl
    · refine typing_aux T L ss (n + 1) (m + 1) ?_
      intro k hk
      have e1 : n + 1 + k = n + (k + 1) := by omega
      have e2 : m + 1 + k = m + (k + 1) := by omega
      rw [e1, e2]
      exact hpar (k + 1) (by simpa using Nat.succ_lt_succ hk)

/-- C3 amended: when the history length is odd, `token_type_ids` assigns
each non-persona segment its own leading speaker-role token, and the
persona block is typed `speaker1` (the reply's role). -/
theorem token_type_own_role_of_odd_history (T : Toks) (p h : List (List ℕ)) (r : List ℕ)
    (lab w : Bool) (hodd : h.length % 2 = 1) :
    (buildInput T p h r lab w).token_type_ids = ownRoleTypes T p h r w := by
  show (mapi (fun i s => s.map fun _ => if i % 2 = 1 then T.speaker2 else T.speaker1) 0
      (seqP T p h r w)).flatten = ownRoleTypes T p h r w
  rw [show seqP T p h r w = ([T.bos] ++ p.flatten) ::
      mapi (fun i s => segRole T (h.length + 2) i :: s) 0
        (h ++ [r ++ (if w then [T.eos] else [])]) from rfl]
  show (_ :: mapi _ 1 _).flatten = _
  rw [ownRoleTypes]
  simp only [List.flatten_cons]
  refine congrArg₂ (· ++ ·) ?_ ?_
  · show ([T.bos] ++ p.flatten).map (fun _ => if 0 % 2 = 1 then T.speaker2 else T.speaker1) = _
    rw [List.map_const']
    simp
  · rw [typing_aux T (h.length + 2) (h ++ [r ++ (if w then [T.eos] else [])]) 1 0]
    intro k hk
    simp only [List.length_append, List.length_cons] at hk
    have hk' : k ≤ h.length := by simp at hk; omega
    omega

/-- C5: label masking.  A non-gold instance's labels are all the ignore
sentinel `-100`.  In a gold instance, with `B` the total length of all
segments before the reply segment, position `B` (the reply's leading role
token) and everything before it is `-100`, and every position after `B`
carries the corresponding `input_ids` value (a token id, never `-100`). -/
theorem labels_masking (T : Toks) (p h : List (List ℕ)) (r : List ℕ) (w : Bool) :
    (buildInput T p h r false w).labels =
        List.replicate (buildInput T p h r false w).input_ids.length (-100) ∧
      ∀ i, i < (buildInput T p h r true w).labels.length →
        (((buildInput T p h r true w).labels[i]? = some (-100) ↔
            i ≤ ((seqP T p h r w).dropLast.map List.length).sum) ∧
          (((seqP T p h r w).dropLast.map List.length).sum < i →
            (buildInput T p h r true w).labels[i]? =
              ((buildInput T p h r true w).input_ids[i]?).map Int.ofNat)) := by
  constructor
  · rfl
  intro i hi
  set B := ((seqP T p h r w).dropLast.map List.length).sum with hB
  set rr : List ℕ := r ++ if w then [T.eos] else [] with hrr
  have hlab : (buildInput T p h r true w).labels =
      List.replicate B (-100) ++ [-100] ++ rr.map Int.ofNat := by
    show List.replicate B (-100) ++ [-100] ++
        (((seqP T p h r w).getLastD []).drop 1).map Int.ofNat = _
    rw [seqP_getLast]
    rfl
  have hids : (buildInput T p h r true w).input_ids =
      (seqP T p h r w).dropLast.flatten ++
        (segRole T (h.length + 2) h.length :: rr) := by
    show (seqP T p h r w).flatten = _
    have hnil : seqP T p h r w ≠ [] := by simp [seqP]
    conv_lhs => rw [← List.dropLast_concat_getLast hnil]
    rw [List.flatten_append]
    congr 1
    have hg : (seqP T p h r w).getLast (by simp [seqP]) = (seqP T p h r w).getLastD [] := by
      rw [List.getLastD_eq_getLast?, List.getLast?_eq_getLast _ (by simp [seqP])]
      rfl
    rw [hg, seqP_getLast]
    simp
  have hflen : (seqP T p h r w).dropLast.flatten.length = B := by
    rw [List.length_flatten]
  have hlablen : (buildInput T p h r true w).labels.length = B + 1 + rr.length := by
    rw [hlab]
    simp
    omega
  rw [hlablen] at hi
  rcases Nat.lt_or_ge i B with hic | hic
  · constructor
    · rw [hlab]
      rw [List.getElem?_append_left (by simpa using Nat.lt_of_lt_of_le hic (by simp)),
        List.getElem?_append_left (by simpa using hic)]
      simp [List.getElem?_replicate, hic]
      omega
    · omega
  rcases Nat.eq_or_lt_of_le hic with hie | hii
  · have hi1 : i < (List.replicate B (-100 : ℤ) ++ [(-100 : ℤ)]).length := by
      simp
      omega
    have hi2 : (List.replicate B (-100 : ℤ)).length ≤ i := by
      simp
      omega
    constructor
    · rw [hlab, List.getElem?_append_left hi1, List.getElem?_append_right hi2]
      simp only [List.length_replicate]
      rw [show i - B = 0 from by omega]
      simp
      omega
    · omega
  · have hdrop : i - B - 1 < rr.length := by omega
    have hi3 : (List.replicate B (-100 : ℤ) ++ [(-100 : ℤ)]).length ≤ i := by
      simp
      omega
    have hidx : i - (List.replicate B (-100 : ℤ) ++ [(-100 : ℤ)]).length = i - B - 1 := by
      simp
      omega
    have hlabget : (buildInput T p h r true w).labels[i]? = (rr[i - B - 1]?).map Int.ofNat := by
      rw [hlab, List.getElem?_append_right hi3, hidx, List.getElem?_map]
    constructor
    · rw [hlabget]
      rcases hval : rr[i - B - 1]? with _ | v
      · rw [List.getElem?_eq_none_iff] at hval
        exact absurd hval (by omega)
      · show (some v).map Int.ofNat = some (-100) ↔ i ≤ B
        constructor
        · intro hc
          have hv : (Int.ofNat v : ℤ) = -100 := by
            injection hc
          have hv2 : (v : ℤ) = -100 := hv
          omega
        · intro hc
          exact absurd hc (by omega)
    · intro _
      rw [hlabget, hids]
      have hi4 : (seqP T p h r w).dropLast.flatten.length ≤ i := by
        rw [hflen]
        omega
      rw [List.getElem?_append_right hi4, hflen]
      have h5 : i - B = (i - B - 1) + 1 := by omega
      rw [h5]
      simp

/-- Witness for `seqP_role_alternation` at a concrete tokenizer and inputs. -/
theorem seqP_role_alternation_witness :
    ((⟨0, 1, 2, 3⟩ : Toks).speaker1 ≠ (⟨0, 1, 2, 3⟩ : Toks).speaker2) ∧
      segRole ⟨0, 1, 2, 3⟩ (([[9]] : List (List ℕ)).length + 2) ([[9]] : List (List ℕ)).length =
        (⟨0, 1, 2, 3⟩ : Toks).speaker1 :=
  ⟨by decide, (seqP_role_alternation ⟨0, 1, 2, 3⟩ [[5]] [[9]] [7] true (by decide)).2.1⟩

/-- Witness for `token_type_own_role_of_odd_history` at a concrete
odd-length history. -/
theorem token_type_own_role_witness :
    ([[9]] : List (List ℕ)).length % 2 = 1 ∧
      (buildInput ⟨0, 1, 2, 3⟩ [[5]] [[9]] [7] false true).token_type_ids =
        ownRoleTypes ⟨0, 1, 2, 3⟩ [[5]] [[9]] [7] true :=
  ⟨by decide,
    token_type_own_role_of_odd_history ⟨0, 1, 2, 3⟩ [[5]] [[9]] [7] false true (by decide)⟩

/-- Witness for `labels_masking` at a concrete gold instance and position. -/
theorem labels_masking_witness :
    (3 : ℕ) < (buildInput ⟨0, 1, 2, 3⟩ [[5]] [] [7] true true).labels.length ∧
      (((buildInput ⟨0, 1, 2, 3⟩ [[5]] [] [7] true true).labels[3]? = some (-100) ↔
          (3 : ℕ) ≤ ((seqP ⟨0, 1, 2, 3⟩ [[5]] [] [7] true).dropLast.map List.length).sum) ∧
        (((seqP ⟨0, 1, 2, 3⟩ [[5]] [] [7] true).dropLast.map List.length).sum < 3 →
          (buildInput ⟨0, 1, 2, 3⟩ [[5]] [] [7] true true).labels[3]? =
            ((buildInput ⟨0, 1, 2, 3⟩ [[5]] [] [7] true true).input_ids[3]?).map Int.ofNat)) :=
  ⟨by decide, (labels_masking ⟨0, 1, 2, 3⟩ [[5]] [] [7] true).2 3 (by decide)⟩

/-- Descending stable sort on extended scores: the value ordering used by
`torch.topk` and `torch.sort(..., descending=True)` in `top_filtering`. -/
def sortDescEF (l : List EF) : List EF :=
  List.insertionSort (fun a b => b ≤ a) l

/-- `torch.topk(logits, top_k)[0][..., -1]`: the `top_k`-th largest entry,
after the clamp `top_k = min(top_k, logits.size(-1))`. -/
def kthLargest (l : List EF) (k : ℕ) : EF :=
  (sortDescEF l).getD (min k l.length - 1) ⊥

/-- Top-k stage of `top_filtering`: if `top_k > 0`, every entry strictly
below the `top_k`-th largest value becomes the filter value `⊥`. -/
def topKStage (l : List EF) (k : ℕ) : List EF :=
  if 0 < min k l.length then
    l.map fun v => if v < kthLargest l k then ⊥ else v
  else l

/-- `exp` with `exp(-inf) = 0`: how `F.softmax` treats `-inf` entries. -/
noncomputable def efExp : EF → ℝ :=
  WithBot.recBotCoe 0 fun q => Real.exp (q : ℝ)

/-- `F.softmax(v, dim=-1)` over the exact real semantics. -/
noncomputable def softmaxList (l : List EF) : List ℝ :=
  l.map fun v => efExp v / (l.map efExp).sum

/-- `torch.cumsum(probs, dim=-1)`: running partial sums. -/
noncomputable def partialSums (acc : ℝ) : List ℝ → List ℝ
  | [] => []
  | x :: xs => (acc + x) :: partialSums (acc + x) xs

/-- The removal mask of the nucleus filter over the sorted positions:
`sorted_indices_to_remove = cumulative_probabilities > top_p`, shifted one
position to the right with position 0 forced to be kept. -/
noncomputable def topPMask (cum : List ℝ) (p : ℚ) : List Bool :=
  false :: (cum.map fun c => decide ((p : ℝ) < c)).dropLast

/-- The scatter `logits[indices_to_remove] = filter_value`: entries (indexed
from `n`) whose index lies in `removed` become `⊥`. -/
def maskOut (removed : List ℕ) : ℕ → List EF → List EF
  | _, [] => []
  | n, v :: vs => (if n ∈ removed then ⊥ else v) :: maskOut removed (n + 1) vs

/-- `torch.sort(logits, descending=True)` on (index, value) pairs: a stable
descending sort by value, pairing each value with its unsorted index. -/
def sortedPairs (l : List EF) : List (ℕ × EF) :=
  List.insertionSort (fun a b : ℕ × EF => b.2 ≤ a.2) (mapi (fun i v => (i, v)) 0 l)

/-- `sorted_indices[sorted_indices_to_remove]`: the unsorted indices sitting
at the masked sorted positions. -/
noncomputable def removedIdx (l : List EF) (p : ℚ) : List ℕ :=
  (((sortedPairs l).zip
        (topPMask (partialSums 0 (softmaxList ((sortedPairs l).map Prod.snd))) p)).filter
      fun q => q.2).map
    fun q => q.1.1

/-- Nucleus (top-p) stage of `top_filtering`: sort the (index, value) pairs
by value descending, compute cumulative softmax mass, remove the unsorted
indices at masked sorted positions. -/
noncomputable def topPStage (l : List EF) (p : ℚ) : List EF :=
  if 0 < p then maskOut (removedIdx l p) 0 l else l

/-- Absolute-threshold stage of `top_filtering`: `logits < threshold`
becomes the filter value `⊥`. -/
def thresholdStage (l : List EF) (t : EF) : List EF :=
  l.map fun v => if v < t then ⊥ else v

/-- `top_filtering(logits, top_k, top_p, threshold)` with the default
`filter_value = -inf` (`⊥`): the top-k, nucleus and threshold filters
applied in order to the same vector. -/
noncomputable def top_filtering (l : List EF) (top_k : ℕ) (top_p : ℚ) (threshold : EF) : List EF :=
  thresholdStage (topPStage (topKStage l top_k) top_p) threshold

theorem thresholdStage_bot (l : List EF) : thresholdStage l ⊥ = l := by
  unfold thresholdStage
  rw [show (fun v : EF => if v < ⊥ then ⊥ else v) = id from ?_, List.map_id]
  funext v
  simp [not_lt_bot]

/-- C9: with `top_k = 0`, `top_p = 0` and the default threshold `-inf`,
`top_filtering` is the identity function. -/
theorem top_filtering_identity (l : List EF) : top_filtering l 0 0 ⊥ = l := by
  unfold top_filtering topKStage topPStage
  simp [thresholdStage_bot]

theorem forall₂_or_bot_map (f : EF → EF) (hf : ∀ a, f a = a ∨ f a = ⊥) :
    ∀ l : List EF, List.Forall₂ (fun a b => b = a ∨ b = ⊥) l (l.map f)
  | [] => List.Forall₂.nil
  | x :: xs => List.Forall₂.cons (hf x) (forall₂_or_bot_map f hf xs)

theorem forall₂_or_bot_maskOut (removed : List ℕ) :
    ∀ (n : ℕ) (l : List EF),
      List.Forall₂ (fun a b => b = a ∨ b = ⊥) l (maskOut removed n l)
  | _, [] => List.Forall₂.nil
  | n, v :: vs => by
    refine List.Forall₂.cons ?_ (forall₂_or_bot_maskOut removed (n + 1) vs)
    by_cases hn : n ∈ removed
    · exact Or.inr (by simp [hn])
    · exact Or.inl (by simp [hn])

theorem forall₂_or_bot_refl (l : List EF) :
    List.Forall₂ (fun a b => b = a ∨ b = ⊥) l l :=
  List.forall₂_same.2 fun _ _ => Or.inl rfl

theorem forall₂_or_bot_trans {l m n : List EF}
    (h1 : List.Forall₂ (fun a b => b = a ∨ b = ⊥) l m)
    (h2 : List.Forall₂ (fun a b => b = a ∨ b = ⊥) m n) :
    List.Forall₂ (fun a b => b = a ∨ b = ⊥) l n := by
  induction h1 generalizing n with
  | nil =>
    cases h2
    exact List.Forall₂.nil
  | cons ha _ ih =>
    cases h2 with
    | cons hb hm =>
      refine List.Forall₂.cons ?_ (ih hm)
      rcases hb with hb | hb
      · rw [hb]
        exact ha
      · exact Or.inr hb

theorem topKStage_or_bot (l : List EF) (k : ℕ) :
    List.Forall₂ (fun a b => b = a ∨ b = ⊥) l (topKStage l k) := by
  unfold topKStage
  split
  · refine forall₂_or_bot_map _ ?_ l
    intro a
    by_cases ha : a < kthLargest l k
    · exact Or.inr (by simp [ha])
    · exact Or.inl (by simp [ha])
  · exact forall₂_or_bot_refl l

theorem topPStage_or_bot (l : List EF) (p : ℚ) :
    List.Forall₂ (fun a b => b = a ∨ b = ⊥) l (topPStage l p) := by
  unfold topPStage
  split
  · exact forall₂_or_bot_maskOut _ 0 l
  · exact forall₂_or_bot_refl l

theorem thresholdStage_or_bot (l : List EF) (t : EF) :
    List.Forall₂ (fun a b => b = a ∨ b = ⊥) l (thresholdStage l t) := by
  refine forall₂_or_bot_map _ ?_ l
  intro a
  by_cases ha : a < t
  · exact Or.inr (by simp [ha])
  · exact Or.inl (by simp [ha])

/-- C10: frame property of `top_filtering`.  For every logits vector and
every combination of `top_k`, `top_p` and `threshold`, each entry of the
result is either the corresponding input entry unchanged or the filter
value `-inf` (`⊥`); no entry is reordered, rescaled, or restored. -/
theorem top_filtering_frame (l : List EF) (k : ℕ) (p : ℚ) (t : EF) :
    List.Forall₂ (fun a b => b = a ∨ b = ⊥) l (top_filtering l k p t) :=
  forall₂_or_bot_trans (topKStage_or_bot l k)
    (forall₂_or_bot_trans (topPStage_or_bot (topKStage l k) p)
      (thresholdStage_or_bot (topPStage (topKStage l k) p) t))

/-- C8 counterexample: with two tied entries `[1, 1]` and `top_k = 1`, the
top-k filter keeps BOTH entries finite (the code removes only entries
strictly below the `k`-th largest value), so exactly-`top_k` survival
fails. -/
theorem topk_ties_counterexample :
    top_filtering [((1 : ℚ) : EF), ((1 : ℚ) : EF)] 1 0 ⊥ =
        [((1 : ℚ) : EF), ((1 : ℚ) : EF)] ∧
      (top_filtering [((1 : ℚ) : EF), ((1 : ℚ) : EF)] 1 0 ⊥).countP
          (fun v => decide (v ≠ (⊥ : EF))) = 2 := by
  decide

theorem forall₂_map_eq (f : α → β) :
    ∀ l : List α, List.Forall₂ (fun a b => b = f a) l (l.map f)
  | [] => List.Forall₂.nil
  | _ :: xs => List.Forall₂.cons rfl (forall₂_map_eq f xs)

/-- A finite-score vector lifted into the extended domain. -/
def liftQ (l : List ℚ) : List EF :=
  l.map fun q : ℚ => (q : EF)

theorem liftQ_length (l : List ℚ) : (liftQ l).length = l.length := by
  simp only [liftQ, List.length_map]

theorem liftQ_ne_bot (l : List ℚ) : ∀ v ∈ liftQ l, v ≠ ⊥ := by
  intro v hv
  obtain ⟨q, _, rfl⟩ := List.mem_map.1 hv
  exact WithBot.coe_ne_bot

theorem countP_map_topk (kth : EF) :
    ∀ L : List EF, (∀ v ∈ L, v ≠ ⊥) →
      (L.map fun v => if v < kth then ⊥ else v).countP (fun v => decide (v ≠ (⊥ : EF))) =
        L.countP fun v => decide (¬v < kth)
  | [], _ => rfl
  | v :: vs, hall => by
    have ih := countP_map_topk kth vs (fun x hx => hall x (List.mem_cons_of_mem v hx))
    simp only [List.map_cons, List.countP_cons, ih]
    by_cases hv : v < kth
    · simp [hv]
    · have hne : v ≠ ⊥ := hall v (List.mem_cons_self v vs)
      simp [hv, hne]

theorem top_filtering_topk_only (L : List EF) (k : ℕ) :
    top_filtering L k 0 ⊥ = topKStage L k := by
  unfold top_filtering topPStage
  rw [if_neg (by norm_num), thresholdStage_bot]

/-- C8 amended: for `top_k > 0` (with `top_p = 0` and the default
threshold), `top_filtering` keeps unchanged exactly the entries that are
not strictly below the `top_k`-th largest value and replaces the rest with
`-inf`; consequently at least `min top_k len` entries survive — exactly
`top_k` only when no tie crosses the `top_k` boundary. -/
theorem topk_filter_spec (l : List ℚ) (k : ℕ) (hk : 0 < k) :
    List.Forall₂ (fun a b => b = if a < kthLargest (liftQ l) k then ⊥ else a) (liftQ l)
        (top_filtering (liftQ l) k 0 ⊥) ∧
      min k l.length ≤
        (top_filtering (liftQ l) k 0 ⊥).countP fun v => decide (v ≠ (⊥ : EF)) := by
  rw [top_filtering_topk_only]
  have hLlen : (liftQ l).length = l.length := liftQ_length l
  rcases Nat.eq_zero_or_pos (min k (liftQ l).length) with hm | hm
  · have hlen0 : (liftQ l).length = 0 := by omega
    have hl0 : liftQ l = [] := List.eq_nil_of_length_eq_zero hlen0
    rw [topKStage, if_neg (by omega), hl0]
    refine ⟨List.Forall₂.nil, ?_⟩
    rw [hl0] at hLlen
    simp at hLlen
    omega
  · rw [topKStage, if_pos hm]
    refine ⟨forall₂_map_eq _ (liftQ l), ?_⟩
    rw [countP_map_topk _ (liftQ l) (liftQ_ne_bot l)]
    have hperm : (sortDescEF (liftQ l)).Perm (liftQ l) := List.perm_insertionSort _ (liftQ l)
    have hSlen : (sortDescEF (liftQ l)).length = (liftQ l).length := hperm.length_eq
    have hcnt : (liftQ l).countP (fun v => decide (¬v < kthLargest (liftQ l) k)) =
        (sortDescEF (liftQ l)).countP fun v => decide (¬v < kthLargest (liftQ l) k) :=
      (hperm.countP_congr fun _ _ => rfl).symm
    have hmle : min k (liftQ l).length ≤ (sortDescEF (liftQ l)).length := by omega
    have hsorted : List.Pairwise (fun a b : EF => b ≤ a) (sortDescEF (liftQ l)) :=
      List.sorted_insertionSort _ (liftQ l)
    have hkth : kthLargest (liftQ l) k =
        (sortDescEF (liftQ l)).get ⟨min k (liftQ l).length - 1, by omega⟩ := by
      rw [kthLargest, List.getD_eq_getElem?_getD,
        List.getElem?_eq_getElem (by omega : min k (liftQ l).length - 1 <
          (sortDescEF (liftQ l)).length)]
      rfl
    have htake : ∀ a ∈ (sortDescEF (liftQ l)).take (min k (liftQ l).length),
        ¬a < kthLargest (liftQ l) k := by
      intro a ha
      rw [List.mem_take_iff_getElem] at ha
      obtain ⟨i, hi, rfl⟩ := ha
      rw [hkth]
      rcases Nat.lt_or_ge i (min k (liftQ l).length - 1) with hi1 | hi1
      · have hrel := List.pairwise_iff_getElem.mp hsorted i (min k (liftQ l).length - 1)
          (by omega) (by omega) hi1
        exact not_lt.2 hrel
      · have hieq : i = min k (liftQ l).length - 1 := by omega
        subst hieq
        exact lt_irrefl _
    rw [← hLlen]
    calc min k (liftQ l).length
        = ((sortDescEF (liftQ l)).take (min k (liftQ l).length)).countP
            (fun v => decide (¬v < kthLargest (liftQ l) k)) := by
          rw [List.countP_eq_length.mpr ?_, List.length_take]
          · omega
          · intro a ha
            simpa using htake a ha
      _ ≤ (sortDescEF (liftQ l)).countP fun v => decide (¬v < kthLargest (liftQ l) k) := by
          conv_rhs => rw [← List.take_append_drop (min k (liftQ l).length) (sortDescEF (liftQ l))]
          rw [List.countP_append]
          omega
      _ = (liftQ l).countP fun v => decide (¬v < kthLargest (liftQ l) k) := hcnt.symm

/-- Witness for `topk_filter_spec` at `l = [3, 1, 2]`, `k = 2`. -/
theorem topk_filter_spec_witness :
    (0 : ℕ) < 2 ∧
      (List.Forall₂ (fun a b => b = if a < kthLargest (liftQ [3, 1, 2]) 2 then ⊥ else a)
          (liftQ [3, 1, 2]) (top_filtering (liftQ [3, 1, 2]) 2 0 ⊥) ∧
        min 2 ([(3 : ℚ), 1, 2]).length ≤
          (top_filtering (liftQ [3, 1, 2]) 2 0 ⊥).countP fun v => decide (v ≠ (⊥ : EF))) :=
  ⟨by decide, topk_filter_spec [3, 1, 2] 2 (by decide)⟩

theorem maskOut_get? (removed : List ℕ) :
    ∀ (n : ℕ) (l : List EF) (i : ℕ),
      (maskOut removed n l).get? i = (l.get? i).map fun v => if n + i ∈ removed then ⊥ else v
  | _, [], i => by simp [maskOut]
  | n, v :: vs, 0 => by simp [maskOut]
  | n, v :: vs, i + 1 => by
    have h : n + 1 + i = n + (i + 1) := by omega
    simp only [maskOut, List.get?, maskOut_get? removed (n + 1) vs i, h]

theorem mem_mapi_pairs {α} : ∀ (n : ℕ) (L : List α) (q : ℕ × α),
    q ∈ mapi (fun i v => (i, v)) n L → ∃ i, ∃ hi : i < L.length, q = (n + i, L.get ⟨i, hi⟩)
  | _, [], q => by simp [mapi]
  | n, v :: vs, q => by
    intro hq
    rcases List.mem_cons.1 hq with hq | hq
    · exact ⟨0, by simp, by simp [hq]⟩
    · obtain ⟨i, hi, rfl⟩ := mem_mapi_pairs (n + 1) vs q hq
      refine ⟨i + 1, by simp [Nat.succ_lt_succ hi], ?_⟩
      have h : n + 1 + i = n + (i + 1) := by omega
      rw [h]
      rfl

theorem mapi_pairs_mem {α} (n : ℕ) (L : List α) (i : ℕ) (hi : i < L.length) :
    (n + i, L.get ⟨i, hi⟩) ∈ mapi (fun i v => (i, v)) n L := by
  have hg := mapi_get? (fun i v => (i, v)) n L i
  rw [get?_eq_some_getD L i (L.get ⟨i, hi⟩) hi] at hg
  have : (mapi (fun i v => (i, v)) n L).get? i = some (n + i, L.getD i (L.get ⟨i, hi⟩)) := hg
  have hgd : L.getD i (L.get ⟨i, hi⟩) = L.get ⟨i, hi⟩ := by
    rw [List.getD_eq_getElem?_getD, List.getElem?_eq_getElem hi]
    rfl
  rw [hgd] at this
  exact List.get?_mem this

theorem mapi_pairs_fst {α} : ∀ (n : ℕ) (L : List α),
    (mapi (fun i v => (i, v)) n L).map Prod.fst = List.range' n L.length
  | _, [] => rfl
  | n, v :: vs => by
    simp only [mapi, List.map_cons, mapi_pairs_fst (n + 1) vs, List.length_cons]
    rfl

theorem sortedPairs_perm (l : List EF) :
    (sortedPairs l).Perm (mapi (fun i v => (i, v)) 0 l) :=
  List.perm_insertionSort _ _

instance : IsTotal (ℕ × EF) fun a b => b.2 ≤ a.2 :=
  ⟨fun a b => le_total b.2 a.2⟩

instance : IsTrans (ℕ × EF) fun a b => b.2 ≤ a.2 :=
  ⟨fun _ _ _ h1 h2 => le_trans h2 h1⟩

theorem sortedPairs_sorted (l : List EF) :
    List.Pairwise (fun a b : ℕ × EF => b.2 ≤ a.2) (sortedPairs l) :=
  List.sorted_insertionSort _ _

theorem sortedPairs_fst_nodup (l : List EF) : ((sortedPairs l).map Prod.fst).Nodup := by
  have hperm := (sortedPairs_perm l).map Prod.fst
  rw [List.Perm.nodup_iff hperm, mapi_pairs_fst]
  exact List.nodup_range' 0 l.length

theorem top_filtering_topp_only (L : List EF) (p : ℚ) :
    top_filtering L 0 p ⊥ = topPStage L p := by
  unfold top_filtering topKStage
  rw [if_neg (by simp), thresholdStage_bot]

theorem topPStage_pos (L : List EF) (p : ℚ) (hp : 0 < p) :
    topPStage L p = maskOut (removedIdx L p) 0 L := by
  unfold topPStage
  rw [if_pos hp]

theorem liftQ_get (l : List ℚ) (i : ℕ) (hi : i < (liftQ l).length) :
    (liftQ l).get ⟨i, hi⟩ =
      ((l.get ⟨i, by simpa [liftQ_length] using hi⟩ : ℚ) : EF) := by
  simp [liftQ]

/-- C7: for every nonempty finite logits vector and every `top_p > 0` (with
`top_k = 0` and the default `-inf` threshold), `top_filtering` leaves the
entry at a position of the maximum finite and unchanged: the nucleus mask
is shifted right with sorted position 0 forced kept, so the highest-scoring
entry always survives no matter how small `top_p` is. -/
theorem top_p_keeps_max (l : List ℚ) (p : ℚ) (hl : l ≠ []) (hp : 0 < p) :
    ∃ j, ∃ hj : j < l.length,
      (∀ i, ∀ hi : i < l.length, l.get ⟨i, hi⟩ ≤ l.get ⟨j, hj⟩) ∧
        (top_filtering (liftQ l) 0 p ⊥).get? j = some ((l.get ⟨j, hj⟩ : ℚ) : EF) := by
  rw [top_filtering_topp_only, topPStage_pos _ _ hp]
  have hLlen : (liftQ l).length = l.length := liftQ_length l
  have hslen : (sortedPairs (liftQ l)).length = l.length := by
    rw [(sortedPairs_perm (liftQ l)).length_eq, mapi_length, hLlen]
  have hlpos : 0 < l.length := List.length_pos.2 hl
  obtain ⟨⟨j, v⟩, rest, hsp⟩ : ∃ q rest, sortedPairs (liftQ l) = q :: rest := by
    cases hq : sortedPairs (liftQ l) with
    | nil =>
      rw [hq] at hslen
      simp at hslen
      omega
    | cons q rest => exact ⟨q, rest, rfl⟩
  have hmem : (j, v) ∈ mapi (fun i v => (i, v)) 0 (liftQ l) := by
    refine (sortedPairs_perm (liftQ l)).subset ?_
    rw [hsp]
    exact List.mem_cons_self _ _
  obtain ⟨j0, hj0, hje⟩ := mem_mapi_pairs 0 (liftQ l) (j, v) hmem
  have hjj : j = j0 := by
    have := congrArg Prod.fst hje
    simpa using this
  subst hjj
  have hv : v = (liftQ l).get ⟨j, hj0⟩ := by
    have := congrArg Prod.snd hje
    simpa using this
  have hjl : j < l.length := by omega
  have hmax : ∀ x ∈ sortedPairs (liftQ l), x.2 ≤ v := by
    intro x hx
    rw [hsp] at hx
    rcases List.mem_cons.1 hx with hx | hx
    · rw [hx]
    · have hpw := sortedPairs_sorted (liftQ l)
      rw [hsp, List.pairwise_cons] at hpw
      exact hpw.1 x hx
  refine ⟨j, hjl, ?_, ?_⟩
  · intro i hi
    have hiL : i < (liftQ l).length := by omega
    have hmemi : (0 + i, (liftQ l).get ⟨i, hiL⟩) ∈ mapi (fun i v => (i, v)) 0 (liftQ l) :=
      mapi_pairs_mem 0 (liftQ l) i hiL
    have hins : (0 + i, (liftQ l).get ⟨i, hiL⟩) ∈ sortedPairs (liftQ l) :=
      (sortedPairs_perm (liftQ l)).symm.subset hmemi
    have hle : (liftQ l).get ⟨i, hiL⟩ ≤ v := hmax _ hins
    rw [hv, liftQ_get, liftQ_get] at hle
    exact WithBot.coe_le_coe.1 hle
  · have hjnot : j ∉ removedIdx (liftQ l) p := by
      intro hjin
      unfold removedIdx topPMask at hjin
      rw [hsp, List.zip_cons_cons, List.filter_cons_of_neg (by simp)] at hjin
      obtain ⟨q, hq, hq1⟩ := List.mem_map.1 hjin
      have hqz := List.mem_of_mem_filter hq
      have hq_rest : q.1 ∈ rest := (List.of_mem_zip hqz).1
      have hnd := sortedPairs_fst_nodup (liftQ l)
      rw [hsp, List.map_cons, List.nodup_cons] at hnd
      have hmm : q.1.1 ∈ rest.map Prod.fst := List.mem_map_of_mem Prod.fst hq_rest
      rw [hq1] at hmm
      exact hnd.1 hmm
    rw [maskOut_get?]
    have hjL : j < (liftQ l).length := by omega
    rw [get?_eq_some_getD (liftQ l) j ((liftQ l).get ⟨j, hjL⟩) hjL]
    have hgd : (liftQ l).getD j ((liftQ l).get ⟨j, hjL⟩) = (liftQ l).get ⟨j, hjL⟩ := by
      rw [List.getD_eq_getElem?_getD, List.getElem?_eq_getElem hjL]
      rfl
    rw [hgd]
    show some (if 0 + j ∈ removedIdx (liftQ l) p then (⊥ : EF) else (liftQ l).get ⟨j, hjL⟩) =
      some ((l.get ⟨j, hjl⟩ : ℚ) : EF)
    rw [Nat.zero_add, if_neg hjnot, liftQ_get]

/-- Witness for `top_p_keeps_max` at `l = [1, 2]`, `p = 1`. -/
theorem top_p_keeps_max_witness :
    ([(1 : ℚ), 2] ≠ []) ∧ ((0 : ℚ) < 1) ∧
      (∃ j, ∃ hj : j < [(1 : ℚ), 2].length,
        (∀ i, ∀ hi : i < [(1 : ℚ), 2].length,
            [(1 : ℚ), 2].get ⟨i, hi⟩ ≤ [(1 : ℚ), 2].get ⟨j, hj⟩) ∧
          (top_filtering (liftQ [1, 2]) 0 1 ⊥).get? j =
            some (([(1 : ℚ), 2].get ⟨j, hj⟩ : ℚ) : EF)) :=
  ⟨by decide, by decide, top_p_keeps_max [1, 2] 1 (by decide) (by decide)⟩

/-- The decoding arguments read by `sample_sequence` from `args`. -/
structure DecodeArgs where
  max_length : ℕ
  min_length : ℕ
  temperature : ℚ
  top_k : ℕ
  top_p : ℚ
  do_sample : Bool

/-- The external model capability: `model(input_ids, token_type_ids)`
returns a score vector over the vocabulary at each position;
`sample_sequence` reads the final position (`logits[0, -1, :]`). -/
abbrev Model := List ℕ → List ℕ → List (List EF)

/-- One iteration's filtered logits:
`build_input_from_segments(personality, history, current_output, tokenizer,
with_eos=False)`, a forward pass, the final-position slice divided by
`args.temperature`, then `top_filtering(logits, top_k=args.top_k,
top_p=args.top_p)` (default threshold `-inf`). -/
noncomputable def stepLogits (M : Model) (T : Toks) (A : DecodeArgs)
    (persona history : List (List ℕ)) (o : List ℕ) : List EF :=
  let inst := buildInput T persona history o false false
  let row := (M inst.input_ids inst.token_type_ids).getLastD []
  top_filtering (row.map fun v => v.map fun q => q / A.temperature) A.top_k A.top_p ⊥

/-- `probs = F.softmax(logits, dim=-1)` for one iteration. -/
noncomputable def stepProbs (M : Model) (T : Toks) (A : DecodeArgs)
    (persona history : List (List ℕ)) (o : List ℕ) : List ℝ :=
  softmaxList (stepLogits M T A persona history o)

def fmiAux [LinearOrder α] : α → ℕ → ℕ → List α → ℕ
  | _, bi, _, [] => bi
  | best, bi, cur, x :: xs =>
    if best < x then fmiAux x cur (cur + 1) xs else fmiAux best bi (cur + 1) xs

/-- `torch.topk(probs, 1)[1]`: the index of the first maximal entry. -/
def firstMaxIdx [LinearOrder α] : List α → ℕ
  | [] => 0
  | x :: xs => fmiAux x 0 1 xs

/-- `probs.max().item()` (probabilities are nonnegative, so folding from 0
is exact on every vector `F.softmax` can produce). -/
noncomputable def probsMax (l : List ℝ) : ℝ :=
  l.foldr max 0

open Classical in
/-- Exact big-step semantics of the special-token resampling `while` loop
in `sample_sequence`, for one iteration: `probs` is the (fixed)
distribution, `first` the token already drawn, and `g n` the `n`-th
`torch.multinomial` redraw.  If `first` is not special the loop body never
runs; otherwise the loop breaks at once (keeping `first`, with a warning)
when `probs.max() == 1`; otherwise it redraws until the first non-special
draw — and diverges (`none`) if every redraw is special. -/
noncomputable def resampleSem (probs : List ℝ) (special : List ℕ) (first : ℕ)
    (g : ℕ → ℕ) : Option ℕ :=
  if first ∉ special then some first
  else if probsMax probs = 1 then some first
  else if h : ∃ n, g n ∉ special then some (g (Nat.find h))
  else none

/-- One iteration of the generation loop: compute the distribution, choose
`prev` (greedy argmax when `do_sample` is false, else the first multinomial
draw `g 0`), run the `min_length` special-token resampling (redraws are
`g 1`, `g 2`, ...), then stop on a special token (`some none`, the `break`),
append the token (`some (some t)`), or diverge (`none`). -/
noncomputable def stepResult (M : Model) (T : Toks) (A : DecodeArgs)
    (persona history : List (List ℕ)) (special : List ℕ) (o : List ℕ) (i : ℕ)
    (g : ℕ → ℕ) : Option (Option ℕ) :=
  let probs := stepProbs M T A persona history o
  let first := if A.do_sample then g 0 else firstMaxIdx probs
  let prev : Option ℕ :=
    if i < A.min_length ∧ first ∈ special then
      resampleSem probs special first fun n => g (n + 1)
    else some first
  match prev with
  | none => none
  | some t => if t ∈ special then some none else some (some t)

/-- The generation loop of `sample_sequence`:
`for i in range(args.max_length)` with the early `break` on a special
token; `none` models divergence of the inner resampling loop.  `g i n` is
the `n`-th `torch.multinomial` draw of iteration `i`. -/
noncomputable def sampleLoop (M : Model) (T : Toks) (A : DecodeArgs)
    (persona history : List (List ℕ)) (special : List ℕ) (g : ℕ → ℕ → ℕ) :
    ℕ → ℕ → List ℕ → Option (List ℕ)
  | _, 0, o => some o
  | i, fuel + 1, o =>
    match stepResult M T A persona history special o i (g i) with
    | none => none
    | some none => some o
    | some (some t) => sampleLoop M T A persona history special g (i + 1) fuel (o ++ [t])

/-- `sample_sequence(personality, history, tokenizer, model, args)` for the
GPT-style branch, from the default empty `current_output`;
`special` is `tokenizer.convert_tokens_to_ids(SPECIAL_TOKENS)`. -/
noncomputable def sampleSequence (M : Model) (T : Toks) (A : DecodeArgs)
    (persona history : List (List ℕ)) (special : List ℕ) (g : ℕ → ℕ → ℕ) :
    Option (List ℕ) :=
  sampleLoop M T A persona history special g 0 A.max_length []

theorem efExp_bot : efExp ⊥ = 0 := rfl

theorem efExp_coe (q : ℚ) : efExp ((q : ℚ) : EF) = Real.exp (q : ℝ) := rfl

/-- The degenerate trained model of the divergence exhibit: every forward
pass scores `<eos>` (id 1) and `<speaker1>` (id 2) highest, with equal
scores, and every other token lower. -/
def degenModel : Model := fun _ _ => [liftQ [0, 10, 10, 0, 0, 0]]

/-- Arguments for the exhibit: `top_k = 2` keeps exactly the two special
tokens, `min_length = 1` activates the resampling loop at step 0. -/
def degenArgs : DecodeArgs := ⟨20, 1, 1, 2, 0, false⟩

theorem map_div_one (L : List EF) : (L.map fun v => v.map fun q => q / (1 : ℚ)) = L := by
  induction L with
  | nil => rfl
  | cons v vs ih =>
    simp only [List.map_cons, ih]
    congr 1
    induction v using WithBot.recBotCoe with
    | bot => rfl
    | coe q =>
      show ((q / 1 : ℚ) : EF) = ((q : ℚ) : EF)
      rw [div_one]

theorem degen_stepLogits (o : List ℕ) :
    stepLogits degenModel ⟨0, 1, 2, 3⟩ degenArgs [[5]] [[6]] o =
      [⊥, ((10 : ℚ) : EF), ((10 : ℚ) : EF), ⊥, ⊥, ⊥] := by
  show top_filtering ((liftQ [0, 10, 10, 0, 0, 0]).map fun v => v.map fun q => q / (1 : ℚ))
      2 0 ⊥ = _
  rw [map_div_one]
  decide

theorem degen_stepProbs (o : List ℕ) :
    stepProbs degenModel ⟨0, 1, 2, 3⟩ degenArgs [[5]] [[6]] o = [0, 1 / 2, 1 / 2, 0, 0, 0] := by
  unfold stepProbs
  rw [degen_stepLogits]
  unfold softmaxList
  simp only [List.map_cons, List.map_nil, efExp_bot, efExp_coe, List.sum_cons, List.sum_nil]
  norm_num
  rw [div_eq_iff (by positivity)]
  ring

theorem degen_stepResult (o : List ℕ) :
    stepResult degenModel ⟨0, 1, 2, 3⟩ degenArgs [[5]] [[6]] [0, 1, 2, 3, 4] o 0
      (fun _ => 1) = none := by
  simp only [stepResult, degen_stepProbs]
  have hfmi : firstMaxIdx [(0 : ℝ), 1 / 2, 1 / 2, 0, 0, 0] = 1 := by
    norm_num [firstMaxIdx, fmiAux]
  have hpm : probsMax [(0 : ℝ), 1 / 2, 1 / 2, 0, 0, 0] = 1 / 2 := by
    norm_num [probsMax, List.foldr, max_def]
  simp only [degenArgs, hfmi]
  rw [if_pos (by simp)]
  unfold resampleSem
  rw [if_neg (by simp), if_neg (by rw [hpm]; norm_num), dif_neg (by simp)]

theorem sampleLoop_none (M : Model) (T : Toks) (A : DecodeArgs)
    (persona history : List (List ℕ)) (special : List ℕ) (g : ℕ → ℕ → ℕ) (i fuel : ℕ)
    (o : List ℕ) (hstep : stepResult M T A persona history special o i (g i) = none) :
    sampleLoop M T A persona history special g i (fuel + 1) o = none := by
  simp only [sampleLoop, hstep]

/-- C1 exhibit (code bug): with a model that always ranks the two special
tokens `<eos>` and `<speaker1>` on top with equal scores and `top_k = 2`,
the filtered distribution puts probability `1/2` on each of the two
special tokens and `0` elsewhere.  Before `min_length`, every multinomial
redraw is then a special token, and the saturation guard
`probs.max() == 1` (meant to "avoid infinitely looping over special
token") never fires because the mass is split: the resampling `while` loop
never exits and `sample_sequence` diverges instead of terminating within
`max_length` iterations.  The second conjunct shows the modelled draw
(token 1) has positive probability `1/2`, i.e. this execution is a real
one. -/
theorem sample_sequence_divergence :
    sampleSequence degenModel ⟨0, 1, 2, 3⟩ degenArgs [[5]] [[6]] [0, 1, 2, 3, 4]
        (fun _ _ => 1) = none ∧
      0 < (stepProbs degenModel ⟨0, 1, 2, 3⟩ degenArgs [[5]] [[6]] []).getD 1 0 := by
  constructor
  · exact sampleLoop_none degenModel ⟨0, 1, 2, 3⟩ degenArgs [[5]] [[6]] [0, 1, 2, 3, 4]
      (fun _ _ => 1) 0 19 [] (degen_stepResult [])
  · rw [degen_stepProbs]
    norm_num

def tieModel : Model := fun _ _ => [liftQ [0, 10, 0, 0, 0, 10, 10]]

def tieArgs : DecodeArgs := ⟨2, 1, 1, 3, 0, false⟩

theorem tie_stepLogits (o : List ℕ) :
    stepLogits tieModel ⟨0, 1, 2, 3⟩ tieArgs [[5]] [[6]] o =
      [⊥, ((10 : ℚ) : EF), ⊥, ⊥, ⊥, ((10 : ℚ) : EF), ((10 : ℚ) : EF)] := by
  show top_filtering ((liftQ [0, 10, 0, 0, 0, 10, 10]).map fun v => v.map fun q => q / (1 : ℚ))
      3 0 ⊥ = _
  rw [map_div_one]
  decide

theorem tie_stepProbs (o : List ℕ) :
    stepProbs tieModel ⟨0, 1, 2, 3⟩ tieArgs [[5]] [[6]] o =
      [0, 1 / 3, 0, 0, 0, 1 / 3, 1 / 3] := by
  unfold stepProbs
  rw [tie_stepLogits]
  unfold softmaxList
  simp only [List.map_cons, List.map_nil, efExp_bot, efExp_coe, List.sum_cons, List.sum_nil]
  norm_num
  rw [div_eq_iff (by positivity)]
  ring

theorem tie_fmi : firstMaxIdx [(0 : ℝ), 1 / 3, 0, 0, 0, 1 / 3, 1 / 3] = 1 := by
  norm_num [firstMaxIdx, fmiAux]

theorem tie_pm : probsMax [(0 : ℝ), 1 / 3, 0, 0, 0, 1 / 3, 1 / 3] = 1 / 3 := by
  norm_num [probsMax, List.foldr, max_def]

theorem tie_step0 (t : ℕ) (ht : t ∉ ([0, 1, 2, 3, 4] : List ℕ)) :
    stepResult tieModel ⟨0, 1, 2, 3⟩ tieArgs [[5]] [[6]] [0, 1, 2, 3, 4] [] 0
      (fun _ => t) = some (some t) := by
  have hred : stepResult tieModel ⟨0, 1, 2, 3⟩ tieArgs [[5]] [[6]] [0, 1, 2, 3, 4] [] 0
      (fun _ => t) =
        match resampleSem [0, 1 / 3, 0, 0, 0, 1 / 3, 1 / 3] [0, 1, 2, 3, 4] 1
          (fun _ => t) with
        | none => none
        | some u => if u ∈ ([0, 1, 2, 3, 4] : List ℕ) then some none else some (some u) := by
    simp only [stepResult]
    rw [tie_stepProbs, tie_fmi]
    exact rfl
  have hres : resampleSem [0, 1 / 3, 0, 0, 0, 1 / 3, 1 / 3] [0, 1, 2, 3, 4] 1
      (fun _ => t) = some t := by
    unfold resampleSem
    rw [if_neg (show ¬(1 ∉ ([0, 1, 2, 3, 4] : List ℕ)) by simp),
      if_neg (show ¬probsMax [(0 : ℝ), 1 / 3, 0, 0, 0, 1 / 3, 1 / 3] = 1 by
        rw [tie_pm]; norm_num),
      dif_pos ⟨0, ht⟩]
  rw [hred, hres]
  show (if t ∈ ([0, 1, 2, 3, 4] : List ℕ) then some none else some (some t)) = some (some t)
  rw [if_neg ht]

theorem tie_step1 (o : List ℕ) (g : ℕ → ℕ) :
    stepResult tieModel ⟨0, 1, 2, 3⟩ tieArgs [[5]] [[6]] [0, 1, 2, 3, 4] o 1 g =
      some none := by
  have hred : stepResult tieModel ⟨0, 1, 2, 3⟩ tieArgs [[5]] [[6]] [0, 1, 2, 3, 4] o 1 g =
      match (some 1 : Option ℕ) with
      | none => none
      | some u => if u ∈ ([0, 1, 2, 3, 4] : List ℕ) then some none else some (some u) := by
    simp only [stepResult]
    rw [tie_stepProbs, tie_fmi]
    exact rfl
  rw [hred]
  show (if (1 : ℕ) ∈ ([0, 1, 2, 3, 4] : List ℕ) then some none else some (some 1)) = some none
  rw [if_pos (by decide)]

theorem tie_run (t : ℕ) (ht : t ∉ ([0, 1, 2, 3, 4] : List ℕ)) :
    sampleSequence tieModel ⟨0, 1, 2, 3⟩ tieArgs [[5]] [[6]] [0, 1, 2, 3, 4]
      (fun _ _ => t) = some [t] := by
  show sampleLoop tieModel ⟨0, 1, 2, 3⟩ tieArgs [[5]] [[6]] [0, 1, 2, 3, 4]
      (fun _ _ => t) 0 (1 + 1) [] = some [t]
  simp only [sampleLoop]
  rw [tie_step0 t ht]
  simp only [List.nil_append, Nat.zero_add]
  rw [tie_step1 [t]]

theorem stepResult_greedy (M : Model) (T : Toks) (A : DecodeArgs)
    (persona history : List (List ℕ)) (special : List ℕ) (o : List ℕ) (i : ℕ)
    (gA gB : ℕ → ℕ) (hds : A.do_sample = false)
    (hsat : i < A.min_length →
      firstMaxIdx (stepProbs M T A persona history o) ∈ special →
      probsMax (stepProbs M T A persona history o) = 1) :
    stepResult M T A persona history special o i gA =
      stepResult M T A persona history special o i gB := by
  simp only [stepResult, hds]
  simp only [Bool.false_eq_true, if_false]
  by_cases hc : i < A.min_length ∧ firstMaxIdx (stepProbs M T A persona history o) ∈ special
  · rw [if_pos hc, if_pos hc]
    have hs := hsat hc.1 hc.2
    unfold resampleSem
    rw [if_neg (not_not_intro hc.2), if_neg (not_not_intro hc.2), if_pos hs, if_pos hs]
  · rw [if_neg hc, if_neg hc]

theorem sampleLoop_greedy_det (M : Model) (T : Toks) (A : DecodeArgs)
    (persona history : List (List ℕ)) (special : List ℕ) (g₁ g₂ : ℕ → ℕ → ℕ)
    (hds : A.do_sample = false)
    (H : ∀ o : List ℕ, o.length < A.min_length →
      firstMaxIdx (stepProbs M T A persona history o) ∈ special →
      probsMax (stepProbs M T A persona history o) = 1) :
    ∀ (fuel : ℕ) (o : List ℕ),
      sampleLoop M T A persona history special g₁ o.length fuel o =
        sampleLoop M T A persona history special g₂ o.length fuel o := by
  intro fuel
  induction fuel with
  | zero => intro o; rfl
  | succ fuel ih =>
    intro o
    have hst := stepResult_greedy M T A persona history special o o.length
      (g₁ o.length) (g₂ o.length) hds (fun h1 h2 => H o h1 h2)
    simp only [sampleLoop]
    rw [hst]
    rcases hx : stepResult M T A persona history special o o.length (g₂ o.length)
      with _ | u
    · rfl
    · rcases u with _ | tok
      · rfl
      · have hlen : (o ++ [tok]).length = o.length + 1 := by simp
        have := ih (o ++ [tok])
        rw [hlen] at this
        exact this

/-- C4 amended: with `do_sample=False`, decoding is deterministic provided
that whenever the greedy (argmax) token at an output prefix shorter than
`min_length` is a special token, the distribution there is saturated
(`probs.max() == 1`): under that proviso the multinomial redraw branch is
never consulted, so the output is independent of the random draw stream. -/
theorem greedy_decoding_deterministic (M : Model) (T : Toks) (A : DecodeArgs)
    (persona history : List (List ℕ)) (special : List ℕ) (g₁ g₂ : ℕ → ℕ → ℕ)
    (hds : A.do_sample = false)
    (H : ∀ o : List ℕ, o.length < A.min_length →
      firstMaxIdx (stepProbs M T A persona history o) ∈ special →
      probsMax (stepProbs M T A persona history o) = 1) :
    sampleSequence M T A persona history special g₁ =
      sampleSequence M T A persona history special g₂ := by
  have h := sampleLoop_greedy_det M T A persona history special g₁ g₂ hds H
    A.max_length []
  simpa using h

/-- C4 counterexample: greedy decoding (`do_sample=False`) is NOT
deterministic.  With a model whose argmax token is `<eos>` before
`min_length` while the distribution is not saturated, `sample_sequence`
falls into the multinomial resampling loop even though `do_sample=False`,
and the output depends on the random draws: the constant-5 draw stream
yields `[5]` while the constant-6 draw stream yields `[6]`.  Both draws
have positive probability `1/3` (last two conjuncts), so both executions
are real. -/
theorem greedy_not_deterministic :
    tieArgs.do_sample = false ∧
      sampleSequence tieModel ⟨0, 1, 2, 3⟩ tieArgs [[5]] [[6]] [0, 1, 2, 3, 4]
          (fun _ _ => 5) = some [5] ∧
      sampleSequence tieModel ⟨0, 1, 2, 3⟩ tieArgs [[5]] [[6]] [0, 1, 2, 3, 4]
          (fun _ _ => 6) = some [6] ∧
      0 < (stepProbs tieModel ⟨0, 1, 2, 3⟩ tieArgs [[5]] [[6]] []).getD 5 0 ∧
      0 < (stepProbs tieModel ⟨0, 1, 2, 3⟩ tieArgs [[5]] [[6]] []).getD 6 0 := by
  refine ⟨rfl, tie_run 5 (by decide), tie_run 6 (by decide), ?_, ?_⟩
  · rw [tie_stepProbs]
    norm_num
  · rw [tie_stepProbs]
    norm_num

/-- Arguments with `min_length = 0` (no resampling window) for the
determinism witness. -/
def greedyArgs : DecodeArgs := ⟨2, 0, 1, 2, 0, false⟩

/-- Witness for `greedy_decoding_deterministic` at a concrete model with
`min_length = 0`, where the proviso holds vacuously. -/
theorem greedy_decoding_deterministic_witness :
    greedyArgs.do_sample = false ∧
      sampleSequence degenModel ⟨0, 1, 2, 3⟩ greedyArgs [[5]] [[6]] [0, 1, 2, 3, 4]
          (fun _ _ => 1) =
        sampleSequence degenModel ⟨0, 1, 2, 3⟩ greedyArgs [[5]] [[6]] [0, 1, 2, 3, 4]
          (fun _ _ => 2) :=
  ⟨rfl,
    greedy_decoding_deterministic degenModel ⟨0, 1, 2, 3⟩ greedyArgs [[5]] [[6]]
      [0, 1, 2, 3, 4] (fun _ _ => 1) (fun _ _ => 2) rfl
      (fun _ ho _ => absurd ho (Nat.not_lt_zero _))⟩
